import Mathlib

/-!
Verification of the deeprl-snes PPO training code (src/policygradientpytorch.py
and src/envs.py) against its natural-language specification.

The Python code is shallowly embedded: numpy/torch float arrays become `List ℝ`,
Python booleans become `Bool`, fallible construction returns `Except`, and the
stateful gym wrappers become explicit state-passing functions.
-/

namespace SnesRL

/-- `np.finfo(np.float32).eps.item()` (line 18 of policygradientpytorch.py):
the float32 machine epsilon, exactly `2 ^ (-23)`. -/
noncomputable def npEps : ℝ := 1 / 2 ^ 23

/-- Python `(not d)` coerced into float arithmetic: `True ↦ 0.0`, `False ↦ 1.0`.
Appears in `generalized_advantage_estimation` as `(not terminals[t])`. -/
def pyNot (d : Bool) : ℝ := if d then 0 else 1

/-- `np.mean` of a 1-D array: sum divided by length. -/
noncomputable def npMean (xs : List ℝ) : ℝ := xs.sum / xs.length

/-- `np.std` of a 1-D array: square root of the population variance
(`sqrt(mean((x - mean(x))^2))`). -/
noncomputable def npStd (xs : List ℝ) : ℝ :=
  Real.sqrt (npMean (xs.map (fun x => (x - npMean xs) ^ 2)))

/-- The reverse recurrence of `generalized_advantage_estimation`
(policygradientpytorch.py lines 269-275).  The Python loop walks the arrays from
the last index down to 0 carrying `lastadv`; structurally that is a front-to-back
recursion in which each cell adds `gamma * lam * (not terminals[t]) * lastadv`
where `lastadv` is the head of the advantages of the tail:

    delta[-1]      = rewards[-1] + gamma * lastvalue * (not terminals[-1]) - values[-1]
    advantages[-1] = delta[-1]
    delta[t]       = rewards[t] + gamma * values[t+1] * (not terminals[t]) - values[t]
    advantages[t]  = delta[t] + gamma * lam * (not terminals[t]) * advantages[t+1]
-/
noncomputable def gaeAdvantages (gamma lam lastvalue : ℝ) :
    List ℝ → List ℝ → List Bool → List ℝ
  | [v], [r], [d] => [r + gamma * lastvalue * pyNot d - v]
  | v :: v' :: vs, r :: rs, d :: ds =>
    let rest := gaeAdvantages gamma lam lastvalue (v' :: vs) rs ds
    (r + gamma * v' * pyNot d - v + gamma * lam * pyNot d * rest.headD 0) :: rest
  | _, _, _ => []

/-- The normalization applied on line 277:
`(advantages - np.mean(advantages)) / (np.std(advantages) + eps)`. -/
noncomputable def npNormalize (xs : List ℝ) : List ℝ :=
  xs.map (fun x => (x - npMean xs) / (npStd xs + npEps))

/-- `generalized_advantage_estimation(values, rewards, terminals, lastvalue, gamma, lam)`
(policygradientpytorch.py lines 255-278): the reverse GAE recurrence followed by
advantage normalization. -/
noncomputable def generalized_advantage_estimation
    (values rewards : List ℝ) (terminals : List Bool) (lastvalue gamma lam : ℝ) :
    List ℝ :=
  npNormalize (gaeAdvantages gamma lam lastvalue values rewards terminals)

/-- The one-step TD error `delta[t]` exactly as the specification writes it:
`delta[t] = r[t] + gamma * V[t+1] * (1 - d[t]) - V[t]` for `t < n-1`, and
`delta[n-1] = r[n-1] + gamma * V_last * (1 - d[n-1]) - V[n-1]` at the last index. -/
noncomputable def gaeDelta (values rewards : List ℝ) (terminals : List Bool)
    (lastvalue gamma : ℝ) (t : Nat) : ℝ :=
  if t + 1 < values.length then
    rewards.getD t 0 + gamma * values.getD (t + 1) 0 * pyNot (terminals.getD t true)
      - values.getD t 0
  else
    rewards.getD t 0 + gamma * lastvalue * pyNot (terminals.getD t true)
      - values.getD t 0

theorem headD_eq_getD_zero (l : List ℝ) : l.headD 0 = l.getD 0 0 := by
  cases l <;> rfl

theorem gaeDelta_cons_succ (v r0 : ℝ) (V r' : List ℝ) (d0 : Bool) (d' : List Bool)
    (lv gamma : ℝ) (k : Nat) :
    gaeDelta (v :: V) (r0 :: r') (d0 :: d') lv gamma (k + 1)
      = gaeDelta V r' d' lv gamma k := by
  simp only [gaeDelta, List.length_cons, List.getD_cons_succ, Nat.add_lt_add_iff_right]

theorem gaeAdvantages_length (gamma lam lastvalue : ℝ) :
    ∀ (V r : List ℝ) (d : List Bool), r.length = V.length → d.length = V.length →
      (gaeAdvantages gamma lam lastvalue V r d).length = V.length
  | [], r, d, hr, hd => by
    simp only [List.length_nil] at hr hd
    rw [List.length_eq_zero] at hr hd
    subst hr; subst hd
    simp [gaeAdvantages]
  | [v], r, d, hr, hd => by
    match r, d, hr, hd with
    | [r0], [d0], _, _ => simp [gaeAdvantages]
  | v :: v' :: vs, r, d, hr, hd => by
    match r, d, hr, hd with
    | r0 :: rs, d0 :: ds, hr, hd =>
      simp only [List.length_cons, Nat.add_right_cancel_iff] at hr hd
      simp only [gaeAdvantages, List.length_cons, Nat.add_right_cancel_iff]
      exact gaeAdvantages_length gamma lam lastvalue (v' :: vs) rs ds hr hd

theorem gaeAdvantages_last (gamma lam lastvalue : ℝ) :
    ∀ (V r : List ℝ) (d : List Bool), r.length = V.length → d.length = V.length →
      V ≠ [] →
      (gaeAdvantages gamma lam lastvalue V r d).getD (V.length - 1) 0
        = gaeDelta V r d lastvalue gamma (V.length - 1)
  | [], _, _, _, _, hne => absurd rfl hne
  | [v], r, d, hr, hd, _ => by
    match r, d, hr, hd with
    | [r0], [d0], _, _ => simp [gaeAdvantages, gaeDelta]
  | v :: v' :: vs, r, d, hr, hd, _ => by
    match r, d, hr, hd with
    | r0 :: rs, d0 :: ds, hr, hd =>
      simp only [List.length_cons, Nat.add_right_cancel_iff] at hr hd
      have ih := gaeAdvantages_last gamma lam lastvalue (v' :: vs) rs ds hr hd
        (List.cons_ne_nil v' vs)
      simp only [List.length_cons, Nat.add_sub_cancel] at ih ⊢
      simp only [gaeAdvantages, List.getD_cons_succ, gaeDelta_cons_succ]
      exact ih

theorem gaeAdvantages_rec (gamma lam lastvalue : ℝ) :
    ∀ (V r : List ℝ) (d : List Bool), r.length = V.length → d.length = V.length →
      ∀ t : Nat, t + 1 < V.length →
      (gaeAdvantages gamma lam lastvalue V r d).getD t 0
        = gaeDelta V r d lastvalue gamma t
          + gamma * lam * pyNot (d.getD t true)
            * (gaeAdvantages gamma lam lastvalue V r d).getD (t + 1) 0
  | [], _, _, _, _, t, ht => by simp at ht
  | [v], r, d, hr, hd, t, ht => by simp at ht
  | v :: v' :: vs, r, d, hr, hd, t, ht => by
    match r, d, hr, hd with
    | r0 :: rs, d0 :: ds, hr, hd =>
      simp only [List.length_cons, Nat.add_right_cancel_iff] at hr hd
      match t with
      | 0 =>
        have hδ : gaeDelta (v :: v' :: vs) (r0 :: rs) (d0 :: ds) lastvalue gamma 0
            = r0 + gamma * v' * pyNot d0 - v := by
          simp only [gaeDelta, List.length_cons]
          rw [if_pos (by omega)]
          simp
        simp only [gaeAdvantages, List.getD_cons_zero, List.getD_cons_succ]
        rw [headD_eq_getD_zero, hδ]
      | t' + 1 =>
        have ht' : t' + 1 < (v' :: vs).length := by
          simpa using Nat.lt_of_succ_lt_succ ht
        have ih := gaeAdvantages_rec gamma lam lastvalue (v' :: vs) rs ds hr hd t' ht'
        simp only [gaeAdvantages, List.getD_cons_succ, gaeDelta_cons_succ]
        exact ih

theorem gaeAdvantages_lastvalue_irrelevant (gamma lam : ℝ) :
    ∀ (V r : List ℝ) (d : List Bool) (lv lv' : ℝ),
      r.length = V.length → d.length = V.length →
      d.getD (V.length - 1) false = true →
      gaeAdvantages gamma lam lv V r d = gaeAdvantages gamma lam lv' V r d
  | [], r, d, lv, lv', hr, hd, _ => by
    simp only [List.length_nil] at hr hd
    rw [List.length_eq_zero] at hr hd
    subst hr; subst hd
    simp [gaeAdvantages]
  | [v], r, d, lv, lv', hr, hd, hterm => by
    match r, d, hr, hd, hterm with
    | [r0], [d0], _, _, hterm =>
      simp only [List.length_cons, List.length_nil, Nat.add_sub_cancel,
        List.getD_cons_zero] at hterm
      subst hterm
      simp [gaeAdvantages, pyNot]
  | v :: v' :: vs, r, d, lv, lv', hr, hd, hterm => by
    match r, d, hr, hd, hterm with
    | r0 :: rs, d0 :: ds, hr, hd, hterm =>
      simp only [List.length_cons, Nat.add_right_cancel_iff] at hr hd
      have hterm' : ds.getD ((v' :: vs).length - 1) false = true := by
        simpa using hterm
      have ih := gaeAdvantages_lastvalue_irrelevant gamma lam (v' :: vs) rs ds lv lv'
        hr hd hterm'
      simp only [gaeAdvantages]
      rw [ih]

/-- C2: `generalized_advantage_estimation` realizes exactly the reverse GAE
recurrence of the specification — the unnormalized advantage array `A` has one
entry per value, `A[n-1] = delta[n-1]`, `A[t] = delta[t] + gamma * lam * (1 -
d[t]) * A[t+1]` for `t < n-1` (with `delta` the one-step TD error `gaeDelta`,
in which a true terminal flag zeroes the `gamma * V[t+1]` resp. `gamma *
V_last` bootstrap term and the propagation factor) — and the function returns
the normalized array `(A - mean A) / (std A + eps)` with `npEps = 2^(-23)`
the float32 machine epsilon. -/
theorem gae_computes_spec_recurrence
    (V r : List ℝ) (d : List Bool) (lastvalue gamma lam : ℝ)
    (hn : 1 ≤ V.length) (hr : r.length = V.length) (hd : d.length = V.length) :
    (gaeAdvantages gamma lam lastvalue V r d).length = V.length
    ∧ (gaeAdvantages gamma lam lastvalue V r d).getD (V.length - 1) 0
        = gaeDelta V r d lastvalue gamma (V.length - 1)
    ∧ (∀ t : Nat, t + 1 < V.length →
        (gaeAdvantages gamma lam lastvalue V r d).getD t 0
          = gaeDelta V r d lastvalue gamma t
            + gamma * lam * pyNot (d.getD t true)
              * (gaeAdvantages gamma lam lastvalue V r d).getD (t + 1) 0)
    ∧ generalized_advantage_estimation V r d lastvalue gamma lam
        = (gaeAdvantages gamma lam lastvalue V r d).map
            (fun a => (a - npMean (gaeAdvantages gamma lam lastvalue V r d))
              / (npStd (gaeAdvantages gamma lam lastvalue V r d) + npEps))
    ∧ npEps = 1 / 2 ^ 23 := by
  have hne : V ≠ [] := List.ne_nil_of_length_pos (by omega)
  exact ⟨gaeAdvantages_length gamma lam lastvalue V r d hr hd,
    gaeAdvantages_last gamma lam lastvalue V r d hr hd hne,
    gaeAdvantages_rec gamma lam lastvalue V r d hr hd,
    rfl, rfl⟩

theorem gae_computes_spec_recurrence_witness :
    (1 ≤ ([10, 20] : List ℝ).length)
    ∧ (generalized_advantage_estimation [10, 20] [3, 4] [false, true] 5 6 7
        = (gaeAdvantages 6 7 5 [10, 20] [3, 4] [false, true]).map
            (fun a => (a - npMean (gaeAdvantages 6 7 5 [10, 20] [3, 4] [false, true]))
              / (npStd (gaeAdvantages 6 7 5 [10, 20] [3, 4] [false, true]) + npEps))) :=
  ⟨by simp,
   (gae_computes_spec_recurrence [10, 20] [3, 4] [false, true] 5 6 7
     (by simp) (by simp) (by simp)).2.2.2.1⟩

/-- C3 counterexample: with `lam = 0`, `V = [0]`, `r = [1]`, `d = [false]`,
`V_last = 0`, `gamma = 1`, the one-step TD error is `delta[0] = 1`, but the
advantage actually returned by `generalized_advantage_estimation` is `0`
(the function normalizes before returning: `(1 - mean [1]) / (std [1] + eps)
= 0`), so the returned advantage does not equal `delta[t]`. -/
theorem gae_lam_zero_counterexample :
    generalized_advantage_estimation [0] [1] [false] 0 1 0 = [0]
    ∧ gaeDelta [0] [1] [false] 0 1 0 = 1 := by
  constructor
  · have hA : gaeAdvantages 1 0 0 [0] [1] [false] = [1] := by
      simp [gaeAdvantages, pyNot]
    rw [generalized_advantage_estimation, hA]
    have hm : npMean [(1 : ℝ)] = 1 := by
      simp [npMean]
    have hs : npStd [(1 : ℝ)] = 0 := by
      simp [npStd, hm, npMean]
    simp [npNormalize, hm, hs]
  · simp [gaeDelta, pyNot]

/-- C3 amended: with `lam = 0` the claimed identity `advantage[t] = delta[t]`
holds for the *unnormalized* advantages (every entry of the GAE recurrence
array equals the one-step TD error), and the function returns their
normalization `(A - mean A) / (std A + eps)` rather than the TD errors
themselves. -/
theorem gae_lam_zero_is_td_error
    (V r : List ℝ) (d : List Bool) (lastvalue gamma : ℝ)
    (hn : 1 ≤ V.length) (hr : r.length = V.length) (hd : d.length = V.length) :
    (∀ t : Nat, t < V.length →
      (gaeAdvantages gamma 0 lastvalue V r d).getD t 0
        = gaeDelta V r d lastvalue gamma t)
    ∧ generalized_advantage_estimation V r d lastvalue gamma 0
        = npNormalize (gaeAdvantages gamma 0 lastvalue V r d) := by
  refine ⟨fun t ht => ?_, rfl⟩
  by_cases hlt : t + 1 < V.length
  · have := gaeAdvantages_rec gamma 0 lastvalue V r d hr hd t hlt
    simpa using this
  · have hlast : t = V.length - 1 := by omega
    subst hlast
    exact gaeAdvantages_last gamma 0 lastvalue V r d hr hd
      (List.ne_nil_of_length_pos (by omega))

theorem gae_lam_zero_is_td_error_witness :
    ((1 : ℝ) ≤ ([10, 20] : List ℝ).length)
    ∧ (∀ t : Nat, t < ([10, 20] : List ℝ).length →
        (gaeAdvantages 6 0 5 [10, 20] [3, 4] [false, true]).getD t 0
          = gaeDelta [10, 20] [3, 4] [false, true] 5 6 t) :=
  ⟨by simp,
   (gae_lam_zero_is_td_error [10, 20] [3, 4] [false, true] 5 6
     (by simp) (by simp) (by simp)).1⟩

/-- C4 counterexample: the segment `V = [0, 0]`, `r = [0, 1]`,
`d = [false, true]` (single terminal at the last index, zero rewards
elsewhere), `V_last = 7`, `gamma = 1/2`, `lam = 1` has unnormalized
advantages `[1/2, 1]`; the returned advantage at the last index is the
normalized terminal delta, but the returned advantage at index 0 is not —
so not *every* advantage equals the normalized delta of the terminal step. -/
theorem gae_boundary_counterexample :
    (generalized_advantage_estimation [0, 0] [0, 1] [false, true] 7 (1/2) 1).getD 1 0
      = (gaeDelta [0, 0] [0, 1] [false, true] 7 (1/2) 1
          - npMean (gaeAdvantages (1/2) 1 7 [0, 0] [0, 1] [false, true]))
        / (npStd (gaeAdvantages (1/2) 1 7 [0, 0] [0, 1] [false, true]) + npEps)
    ∧ (generalized_advantage_estimation [0, 0] [0, 1] [false, true] 7 (1/2) 1).getD 0 0
      ≠ (gaeDelta [0, 0] [0, 1] [false, true] 7 (1/2) 1
          - npMean (gaeAdvantages (1/2) 1 7 [0, 0] [0, 1] [false, true]))
        / (npStd (gaeAdvantages (1/2) 1 7 [0, 0] [0, 1] [false, true]) + npEps) := by
  have hA : gaeAdvantages (1/2) 1 7 [0, 0] [0, 1] [false, true] = [1/2, 1] := by
    simp [gaeAdvantages, pyNot]
  have hδ : gaeDelta [0, 0] [0, 1] [false, true] 7 (1/2) 1 = 1 := by
    simp [gaeDelta, pyNot]
  have hden : npStd [(1/2 : ℝ), 1] + npEps ≠ 0 := by
    have h1 : 0 ≤ npStd [(1/2 : ℝ), 1] := Real.sqrt_nonneg _
    have h2 : (0 : ℝ) < npEps := by rw [npEps]; norm_num
    linarith
  constructor
  · rw [generalized_advantage_estimation, hA, hδ]
    simp [npNormalize]
  · rw [generalized_advantage_estimation, hA, hδ]
    simp only [npNormalize, List.map_cons, List.map_nil, List.getD_cons_zero]
    intro heq
    rw [div_eq_div_iff hden hden] at heq
    have := mul_right_cancel₀ hden heq
    linarith

/-- C4 amended: for every segment whose terminal flag at the last index is
true (in particular the claimed segments with a single terminal at the last
index and zero rewards elsewhere), the bootstrap contribution from `V_last`
is zero: the advantages returned by `generalized_advantage_estimation` are
identical for any two bootstrap values.  The claim's stronger statement that
every returned advantage equals the normalized delta of the terminal step
alone is false (see the counterexample): earlier indices receive
`(gamma*lam)`-discounted propagation of the terminal delta, not the terminal
delta itself. -/
theorem gae_terminal_last_ignores_lastvalue
    (V r : List ℝ) (d : List Bool) (lv lv' gamma lam : ℝ)
    (hr : r.length = V.length) (hd : d.length = V.length)
    (hterm : d.getD (V.length - 1) false = true) :
    generalized_advantage_estimation V r d lv gamma lam
      = generalized_advantage_estimation V r d lv' gamma lam := by
  rw [generalized_advantage_estimation, generalized_advantage_estimation,
    gaeAdvantages_lastvalue_irrelevant gamma lam V r d lv lv' hr hd hterm]

theorem gae_terminal_last_ignores_lastvalue_witness :
    generalized_advantage_estimation [0, 0] [0, 1] [false, true] 7 (1/2) 1
      = generalized_advantage_estimation [0, 0] [0, 1] [false, true] (-3) (1/2) 1 :=
  gae_terminal_last_ignores_lastvalue [0, 0] [0, 1] [false, true] 7 (-3) (1/2) 1
    (by simp) (by simp) (by simp)

/-- Python `torch.clamp(input, min)` with a single bound: clamps from below
only, `max input min`.  This is the form used on line 243 of
policygradientpytorch.py (`torch.clamp(newvalues - values, epscut)`). -/
def torchClampMin (x minval : ℝ) : ℝ := max x minval

/-- Python `torch.clamp(input, min, max)` with both bounds:
`min (max input lo) hi`. -/
def torchClamp (x lo hi : ℝ) : ℝ := min (max x lo) hi

/-- Value-loss computation of `ppostep` (policygradientpytorch.py lines
239-245), elementwise over the minibatch:

    returns = advantages + values
    valuelosses = (newvalues - returns) ** 2
    newvalues_clipped = values + torch.clamp(newvalues - values, epscut)
    valuelosses_clipped = (newvalues_clipped - returns) ** 2
    valueloss = valuecoef * 0.5 * torch.mean(torch.max(valuelosses, valuelosses_clipped))

`newvalues` are the state values recomputed by the current network (the
network itself is an external capability, so they enter as a parameter). -/
noncomputable def ppostepValueLoss (newvalues values advantages : List ℝ)
    (epscut valuecoef : ℝ) : ℝ :=
  let returns := List.zipWith (· + ·) advantages values
  let valuelosses := List.zipWith (fun x rt => (x - rt) ^ 2) newvalues returns
  let newvalues_clipped :=
    List.zipWith (fun a b => a + torchClampMin (b - a) epscut) values newvalues
  let valuelosses_clipped :=
    List.zipWith (fun x rt => (x - rt) ^ 2) newvalues_clipped returns
  valuecoef * (1 / 2) * npMean (List.zipWith max valuelosses valuelosses_clipped)

/-- Value loss as claim C1 states it (transcribed from the claim, for
comparison): `valuecoef` times the mean of the element-wise maximum of the
raw squared error and the squared error of the new value clamped to the
two-sided interval `[old - epscut, old + epscut]`, with no `0.5` factor. -/
noncomputable def claimedValueLoss (newvalues values advantages : List ℝ)
    (epscut valuecoef : ℝ) : ℝ :=
  valuecoef * npMean (List.zipWith
    (fun x p => max ((x - (p.2 + p.1)) ^ 2)
      ((torchClamp x (p.1 - epscut) (p.1 + epscut) - (p.2 + p.1)) ^ 2))
    newvalues (values.zip advantages))

theorem valueLoss_fuse (epscut : ℝ) :
    ∀ (nv v adv : List ℝ),
      List.zipWith max
        (List.zipWith (fun x rt => (x - rt) ^ 2) nv (List.zipWith (· + ·) adv v))
        (List.zipWith (fun x rt => (x - rt) ^ 2)
          (List.zipWith (fun a b => a + torchClampMin (b - a) epscut) v nv)
          (List.zipWith (· + ·) adv v))
      = List.zipWith
          (fun x p => max ((x - (p.2 + p.1)) ^ 2)
            ((p.1 + torchClampMin (x - p.1) epscut - (p.2 + p.1)) ^ 2))
          nv (v.zip adv)
  | [], v, adv => by simp
  | n :: ns, [], adv => by simp
  | n :: ns, v :: vs, [] => by simp
  | n :: ns, v :: vs, a :: as => by
    simp only [List.zipWith_cons_cons, List.zip_cons_cons]
    rw [valueLoss_fuse epscut ns vs as]

/-- C1 counterexample: for the one-element minibatch `newvalues = [-1]`,
`values = [0]`, `advantages = [-1]`, `epscut = 1/10`, `valuecoef = 1`, the
code computes `121/200` (the "clipped" value is `0 + max(-1 - 0, 1/10) =
1/10`, a one-sided lower clamp, and the mean is halved), whereas the claim's
formula — two-sided clamp to `[old - eps, old + eps]` giving `-1/10`, no
`0.5` factor — yields `81/100`. -/
theorem ppostep_value_loss_counterexample :
    ppostepValueLoss [-1] [0] [-1] (1/10) 1 = 121/200
    ∧ claimedValueLoss [-1] [0] [-1] (1/10) 1 = 81/100
    ∧ ppostepValueLoss [-1] [0] [-1] (1/10) 1
        ≠ claimedValueLoss [-1] [0] [-1] (1/10) 1 := by
  have h1 : ppostepValueLoss [-1] [0] [-1] (1/10) 1 = 121/200 := by
    have hmax1 : torchClampMin ((-1 : ℝ) - 0) (1/10) = 1/10 := by
      rw [torchClampMin]
      rw [max_eq_right (by norm_num)]
    simp only [ppostepValueLoss, List.zipWith_cons_cons, List.zipWith_nil_right,
      List.zipWith_nil_left, hmax1, npMean]
    rw [max_eq_right (by norm_num)]
    norm_num
  have h2 : claimedValueLoss [-1] [0] [-1] (1/10) 1 = 81/100 := by
    have hcl : torchClamp (-1 : ℝ) (0 - 1/10) (0 + 1/10) = -(1/10) := by
      rw [torchClamp]
      rw [max_eq_right (by norm_num), min_eq_left (by norm_num)]
      norm_num
    simp only [claimedValueLoss, List.zip_cons_cons, List.zip_nil_right,
      List.zip_nil_left, List.zipWith_cons_cons, List.zipWith_nil_right,
      List.zipWith_nil_left, hcl, npMean]
    rw [max_eq_right (by norm_num)]
    norm_num
  exact ⟨h1, h2, by rw [h1, h2]; norm_num⟩

/-- C1 amended: the value-loss term of `ppostep` equals `valuecoef` times
*half* the mean over the minibatch of the element-wise maximum of (a) the
squared error of the newly computed value against the target
`advantage + old-value` and (b) the squared error of a "clipped" new value
against that same target, where the clipped new value is
`old-value + max(new-value - old-value, epscut)` — a one-sided lower clamp
(`torch.clamp` is called with `epscut` as its single `min` bound), not the
claimed two-sided clamp to `[old-value - epscut, old-value + epscut]`. -/
theorem ppostep_value_loss_amended (newvalues values advantages : List ℝ)
    (epscut valuecoef : ℝ) :
    ppostepValueLoss newvalues values advantages epscut valuecoef
      = valuecoef * (1 / 2) * npMean (List.zipWith
          (fun x p => max ((x - (p.2 + p.1)) ^ 2)
            ((p.1 + torchClampMin (x - p.1) epscut - (p.2 + p.1)) ^ 2))
          newvalues (values.zip advantages)) := by
  simp only [ppostepValueLoss]
  rw [valueLoss_fuse]

/-- Python exception classes relevant to `ButtonsRemapper` construction.
`valueError` models the built-in `ValueError` that `list.index` raises for a
missing element.  The `invalidActionError` constructor stands for the
`InvalidActionError` class named by the specification; the repository never
defines or raises such a class, the constructor exists only so the claim can
be stated and refuted. -/
inductive PyError where
  | valueError
  | invalidActionError
deriving DecidableEq

/-- Python `buttonmap.index(button)` (envs.py line 150): the index of the
first occurrence, or `ValueError` if the element does not occur. -/
def pyListIndex : List String → String → Except PyError Nat
  | [], _ => .error .valueError
  | y :: ys, x => if y = x then .ok 0 else (pyListIndex ys x).map (· + 1)

/-- The inner loop of `ButtonsRemapper.__init__` (envs.py 148-150) acting on
the accumulator array: `for button in action: arr[buttonmap.index(button)] = True`. -/
def buildActionArrayAux (buttonmap : List String) :
    List Bool → List String → Except PyError (List Bool)
  | arr, [] => .ok arr
  | arr, button :: rest => do
    let i ← pyListIndex buttonmap button
    buildActionArrayAux buttonmap (arr.set i true) rest

/-- One iteration of the outer loop of `ButtonsRemapper.__init__` (envs.py
147-151): `arr = np.array([False] * len(buttonmap))`, then set the index of
every named button to `True`. -/
def buildActionArray (buttonmap : List String) (action : List String) :
    Except PyError (List Bool) :=
  buildActionArrayAux buttonmap (List.replicate buttonmap.length false) action

/-- The full outer loop of `ButtonsRemapper.__init__`: builds one boolean
press-vector per curated action, in order, failing at the first action whose
button lookup raises. -/
def buildActionsTable (buttonmap : List String) :
    List (List String) → Except PyError (List (List Bool))
  | [] => .ok []
  | action :: rest => do
    let arr ← buildActionArray buttonmap action
    let tail ← buildActionsTable buttonmap rest
    pure (arr :: tail)

/-- A constructed `ButtonsRemapper`: its state is the canonical table
`self._actions`. -/
structure ButtonsRemapper where
  actionsTable : List (List Bool)
deriving DecidableEq

/-- `ButtonsRemapper.__init__(env, buttonmap, actions)` (envs.py 144-152),
as a fallible constructor. -/
def ButtonsRemapper.construct (buttonmap : List String)
    (actions : List (List String)) : Except PyError ButtonsRemapper :=
  (buildActionsTable buttonmap actions).map ButtonsRemapper.mk

theorem pyListIndex_ok_of_mem {x : String} :
    ∀ {l : List String}, x ∈ l → ∃ i, pyListIndex l x = .ok i
  | [], h => absurd h (List.not_mem_nil x)
  | y :: ys, h => by
    by_cases hyx : y = x
    · exact ⟨0, by simp [pyListIndex, hyx]⟩
    · have hmem : x ∈ ys := by
        rcases List.mem_cons.mp h with h' | h'
        · exact absurd h'.symm hyx
        · exact h'
      obtain ⟨i, hi⟩ := pyListIndex_ok_of_mem hmem
      exact ⟨i + 1, by simp [pyListIndex, hyx, hi, Except.map]⟩

theorem pyListIndex_error_of_not_mem {x : String} :
    ∀ {l : List String}, x ∉ l → pyListIndex l x = .error .valueError
  | [], _ => rfl
  | y :: ys, h => by
    have hyx : y ≠ x := fun he => h (he ▸ List.mem_cons_self y ys)
    have hys : x ∉ ys := fun hm => h (List.mem_cons_of_mem y hm)
    simp [pyListIndex, hyx, pyListIndex_error_of_not_mem hys, Except.map]

theorem pyListIndex_ok_lt {x : String} :
    ∀ {l : List String} {i : Nat}, pyListIndex l x = .ok i → i < l.length
  | [], i, h => by simp [pyListIndex] at h
  | y :: ys, i, h => by
    by_cases hyx : y = x
    · simp [pyListIndex, hyx] at h
      simp only [List.length_cons]
      omega
    · simp only [pyListIndex, hyx, if_false] at h
      match hrec : pyListIndex ys x with
      | .ok i' =>
        rw [hrec] at h
        simp [Except.map] at h
        have := pyListIndex_ok_lt hrec
        simp only [List.length_cons]
        omega
      | .error e => rw [hrec] at h; simp [Except.map] at h

theorem pyListIndex_ok_getD {x : String} :
    ∀ {l : List String} {i : Nat}, pyListIndex l x = .ok i → l.getD i "" = x
  | [], i, h => by simp [pyListIndex] at h
  | y :: ys, i, h => by
    by_cases hyx : y = x
    · simp [pyListIndex, hyx] at h
      subst h
      simpa using hyx
    · simp only [pyListIndex, hyx, if_false] at h
      match hrec : pyListIndex ys x with
      | .ok i' =>
        rw [hrec] at h
        simp [Except.map] at h
        subst h
        simpa using pyListIndex_ok_getD hrec
      | .error e => rw [hrec] at h; simp [Except.map] at h

theorem pyListIndex_ok_of_getD {x : String} :
    ∀ {l : List String}, l.Nodup → ∀ {p : Nat}, p < l.length → l.getD p "" = x →
      pyListIndex l x = .ok p
  | [], _, p, hp, _ => by simp at hp
  | y :: ys, hnd, 0, hp, hget => by
    simp only [List.getD_cons_zero] at hget
    simp [pyListIndex, hget]
  | y :: ys, hnd, p + 1, hp, hget => by
    simp only [List.getD_cons_succ] at hget
    have hplt : p < ys.length := by simpa using hp
    have hxys : x ∈ ys := by
      rw [← hget]
      rw [List.getD_eq_getElem _ _ hplt]
      exact List.getElem_mem hplt
    have hyx : y ≠ x := by
      intro he
      exact (List.nodup_cons.mp hnd).1 (he ▸ hxys)
    have ih := pyListIndex_ok_of_getD (List.nodup_cons.mp hnd).2 hplt hget
    simp [pyListIndex, hyx, ih, Except.map]

theorem getD_set_eq_if {α : Type} (d b : α) :
    ∀ (l : List α) (i p : Nat),
      (l.set i b).getD p d = if i = p ∧ i < l.length then b else l.getD p d
  | [], i, p => by simp
  | x :: xs, 0, 0 => by simp
  | x :: xs, 0, p + 1 => by simp
  | x :: xs, i + 1, 0 => by simp
  | x :: xs, i + 1, p + 1 => by
    simp only [List.set_cons_succ, List.getD_cons_succ, List.length_cons,
      Nat.add_right_cancel_iff, Nat.add_lt_add_iff_right]
    exact getD_set_eq_if d b xs i p

theorem buildActionArrayAux_ok_of_valid (buttonmap : List String) :
    ∀ (action : List String), (∀ b ∈ action, b ∈ buttonmap) →
      ∀ arr : List Bool, ∃ row, buildActionArrayAux buttonmap arr action = .ok row
  | [], _, arr => ⟨arr, rfl⟩
  | b :: rest, h, arr => by
    obtain ⟨i, hi⟩ := pyListIndex_ok_of_mem (h b (List.mem_cons_self b rest))
    obtain ⟨row, hrow⟩ := buildActionArrayAux_ok_of_valid buttonmap rest
      (fun c hc => h c (List.mem_cons_of_mem b hc)) (arr.set i true)
    exact ⟨row, by simp [buildActionArrayAux, hi, hrow, Bind.bind, Except.bind]⟩

theorem buildActionArrayAux_error_of_invalid (buttonmap : List String) :
    ∀ (action : List String), (∃ b ∈ action, b ∉ buttonmap) →
      ∀ arr : List Bool,
        buildActionArrayAux buttonmap arr action = .error .valueError
  | [], h, arr => by simp at h
  | b :: rest, h, arr => by
    by_cases hb : b ∈ buttonmap
    · obtain ⟨i, hi⟩ := pyListIndex_ok_of_mem hb
      obtain ⟨c, hc, hcbm⟩ := h
      rcases List.mem_cons.mp hc with hcb | hcrest
      · exact absurd (hcb ▸ hb) hcbm
      · have ih := buildActionArrayAux_error_of_invalid buttonmap rest
          ⟨c, hcrest, hcbm⟩ (arr.set i true)
        simp [buildActionArrayAux, hi, ih, Bind.bind, Except.bind]
    · simp [buildActionArrayAux, pyListIndex_error_of_not_mem hb, Bind.bind, Except.bind]

theorem buildActionArrayAux_length (buttonmap : List String) :
    ∀ (action : List String) (arr row : List Bool),
      buildActionArrayAux buttonmap arr action = .ok row → row.length = arr.length
  | [], arr, row, h => by
    simp only [buildActionArrayAux] at h
    cases h
    rfl
  | b :: rest, arr, row, h => by
    match hrec : pyListIndex buttonmap b with
    | .ok i =>
      simp only [buildActionArrayAux, hrec, Bind.bind, Except.bind] at h
      have := buildActionArrayAux_length buttonmap rest (arr.set i true) row h
      simpa using this
    | .error e => simp [buildActionArrayAux, hrec, Bind.bind, Except.bind] at h

theorem buildActionArrayAux_getD (buttonmap : List String) :
    ∀ (action : List String) (arr row : List Bool),
      arr.length = buttonmap.length →
      buildActionArrayAux buttonmap arr action = .ok row →
      ∀ p : Nat, (row.getD p false = true
        ↔ arr.getD p false = true ∨ ∃ b ∈ action, pyListIndex buttonmap b = .ok p)
  | [], arr, row, _, h, p => by
    simp only [buildActionArrayAux] at h
    cases h
    simp
  | b :: rest, arr, row, harr, h, p => by
    match hrec : pyListIndex buttonmap b with
    | .ok i =>
      simp only [buildActionArrayAux, hrec, Bind.bind, Except.bind] at h
      have hlen : (arr.set i true).length = buttonmap.length := by
        simpa using harr
      have ih := buildActionArrayAux_getD buttonmap rest (arr.set i true) row hlen h p
      rw [ih, getD_set_eq_if]
      constructor
      · rintro (hset | ⟨c, hc, hcp⟩)
        · by_cases hip : i = p ∧ i < arr.length
          · exact Or.inr ⟨b, List.mem_cons_self b rest, hip.1 ▸ hrec⟩
          · rw [if_neg hip] at hset
            exact Or.inl hset
        · exact Or.inr ⟨c, List.mem_cons_of_mem b hc, hcp⟩
      · rintro (harrp | ⟨c, hc, hcp⟩)
        · left
          split
          · rfl
          · exact harrp
        · rcases List.mem_cons.mp hc with hcb | hcrest
          · subst hcb
            rw [hrec] at hcp
            cases hcp
            left
            rw [if_pos ⟨rfl, harr ▸ pyListIndex_ok_lt hrec⟩]
          · exact Or.inr ⟨c, hcrest, hcp⟩
    | .error e => simp [buildActionArrayAux, hrec, Bind.bind, Except.bind] at h

/-- Characterization of one built press-vector: for a duplicate-free button
list, entry `p` is `True` exactly when `p` is in range and the `p`-th button
is named by the action. -/
theorem buildActionArray_getD (buttonmap : List String) (action : List String)
    (row : List Bool) (hnd : buttonmap.Nodup)
    (h : buildActionArray buttonmap action = .ok row) (p : Nat) :
    row.getD p false = true
      ↔ (p < buttonmap.length ∧ buttonmap.getD p "" ∈ action) := by
  have hbase := buildActionArrayAux_getD buttonmap action
    (List.replicate buttonmap.length false) row (by simp) h p
  rw [hbase]
  have hrep : (List.replicate buttonmap.length false).getD p false = false := by
    by_cases hp : p < buttonmap.length
    · rw [List.getD_eq_getElem _ _ (by simpa using hp)]
      simp
    · rw [List.getD_eq_default]
      simpa using hp
  rw [hrep]
  simp only [Bool.false_eq_true, false_or]
  constructor
  · rintro ⟨b, hb, hbp⟩
    have hlt := pyListIndex_ok_lt hbp
    have hget := pyListIndex_ok_getD hbp
    exact ⟨hlt, hget ▸ hb⟩
  · rintro ⟨hp, hmem⟩
    exact ⟨buttonmap.getD p "", hmem, pyListIndex_ok_of_getD hnd hp rfl⟩

theorem buildActionArray_length (buttonmap : List String) (action : List String)
    (row : List Bool) (h : buildActionArray buttonmap action = .ok row) :
    row.length = buttonmap.length := by
  have := buildActionArrayAux_length buttonmap action
    (List.replicate buttonmap.length false) row h
  simpa using this


theorem buildActionsTable_ok_of_valid (buttonmap : List String) :
    ∀ (actions : List (List String)),
      (∀ a ∈ actions, ∀ b ∈ a, b ∈ buttonmap) →
      ∃ tbl, buildActionsTable buttonmap actions = .ok tbl
        ∧ tbl.length = actions.length
  | [], _ => ⟨[], rfl, rfl⟩
  | action :: rest, h => by
    obtain ⟨row, hrow⟩ := buildActionArrayAux_ok_of_valid buttonmap action
      (h action (List.mem_cons_self action rest))
      (List.replicate buttonmap.length false)
    obtain ⟨tbl, htbl, hlen⟩ := buildActionsTable_ok_of_valid buttonmap rest
      (fun a ha bu hb => h a (List.mem_cons_of_mem action ha) bu hb)
    refine ⟨row :: tbl, ?_, by simp [hlen]⟩
    simp [buildActionsTable, buildActionArray, hrow, htbl, Bind.bind, Except.bind,
      Pure.pure, Except.pure]

theorem buildActionsTable_error_of_invalid (buttonmap : List String) :
    ∀ (actions : List (List String)),
      (∃ a ∈ actions, ∃ b ∈ a, b ∉ buttonmap) →
      buildActionsTable buttonmap actions = .error .valueError
  | [], h => by simp at h
  | action :: rest, h => by
    by_cases hval : ∀ b ∈ action, b ∈ buttonmap
    · obtain ⟨row, hrow⟩ := buildActionArrayAux_ok_of_valid buttonmap action hval
        (List.replicate buttonmap.length false)
      obtain ⟨a, ha, bu, hb, hbbm⟩ := h
      rcases List.mem_cons.mp ha with haa | harest
      · exact absurd (hval bu (haa ▸ hb)) hbbm
      · have ih := buildActionsTable_error_of_invalid buttonmap rest
          ⟨a, harest, bu, hb, hbbm⟩
        simp [buildActionsTable, buildActionArray, hrow, ih, Bind.bind, Except.bind]
    · push_neg at hval
      obtain ⟨bu, hb, hbbm⟩ := hval
      have herr := buildActionArrayAux_error_of_invalid buttonmap action
        ⟨bu, hb, hbbm⟩ (List.replicate buttonmap.length false)
      simp [buildActionsTable, buildActionArray, herr, Bind.bind, Except.bind]

theorem buildActionsTable_ok_length (buttonmap : List String) :
    ∀ (actions : List (List String)) (tbl : List (List Bool)),
      buildActionsTable buttonmap actions = .ok tbl → tbl.length = actions.length
  | [], tbl, h => by
    simp only [buildActionsTable] at h
    cases h
    rfl
  | action :: rest, tbl, h => by
    match hrow : buildActionArray buttonmap action with
    | .ok row =>
      match htail : buildActionsTable buttonmap rest with
      | .ok tail =>
        simp only [buildActionsTable, hrow, htail, Bind.bind, Except.bind,
          Pure.pure, Except.pure] at h
        cases h
        have := buildActionsTable_ok_length buttonmap rest tail htail
        simp [this]
      | .error e =>
        simp [buildActionsTable, hrow, htail, Bind.bind, Except.bind] at h
    | .error e => simp [buildActionsTable, hrow, Bind.bind, Except.bind] at h

theorem buildActionsTable_ok_row (buttonmap : List String) :
    ∀ (actions : List (List String)) (tbl : List (List Bool)),
      buildActionsTable buttonmap actions = .ok tbl →
      ∀ i : Nat, i < actions.length →
        buildActionArray buttonmap (actions.getD i []) = .ok (tbl.getD i [])
  | [], tbl, h, i, hi => by simp at hi
  | action :: rest, tbl, h, i, hi => by
    match hrow : buildActionArray buttonmap action with
    | .ok row =>
      match htail : buildActionsTable buttonmap rest with
      | .ok tail =>
        simp only [buildActionsTable, hrow, htail, Bind.bind, Except.bind,
          Pure.pure, Except.pure] at h
        cases h
        match i with
        | 0 => simpa using hrow
        | i' + 1 =>
          have hi' : i' < rest.length := by simpa using hi
          have := buildActionsTable_ok_row buttonmap rest tail htail i' hi'
          simpa using this
      | .error e =>
        simp [buildActionsTable, hrow, htail, Bind.bind, Except.bind] at h
    | .error e => simp [buildActionsTable, hrow, Bind.bind, Except.bind] at h

/-- C5 counterexample: constructing a `ButtonsRemapper` over button list
`["A"]` with the curated action `["B"]` fails — but with Python's built-in
`ValueError` (raised by `buttonmap.index`), not with an `InvalidActionError`;
no such class exists anywhere in the repository. -/
theorem buttonsRemapper_error_is_valueError :
    ButtonsRemapper.construct ["A"] [["B"]] = .error .valueError
    ∧ PyError.valueError ≠ PyError.invalidActionError :=
  ⟨rfl, by decide⟩

/-- C5 amended: constructing a `ButtonsRemapper` with a curated action that
names a button absent from the native button list fails at construction time
by raising an error — Python's `ValueError` from `buttonmap.index`, not the
claimed `InvalidActionError` (no such class exists in the repository) — and
construction never silently drops an action: when every named button occurs
in the button list, construction succeeds with exactly one press-vector per
curated action. -/
theorem buttonsRemapper_construct_fail_fast (buttonmap : List String)
    (actions : List (List String)) :
    ((∃ a ∈ actions, ∃ b ∈ a, b ∉ buttonmap) →
      ButtonsRemapper.construct buttonmap actions = .error .valueError)
    ∧ ((∀ a ∈ actions, ∀ b ∈ a, b ∈ buttonmap) →
      ∃ t : ButtonsRemapper, ButtonsRemapper.construct buttonmap actions = .ok t
        ∧ t.actionsTable.length = actions.length) := by
  constructor
  · intro h
    rw [ButtonsRemapper.construct, buildActionsTable_error_of_invalid buttonmap actions h]
    rfl
  · intro h
    obtain ⟨tbl, htbl, hlen⟩ := buildActionsTable_ok_of_valid buttonmap actions h
    exact ⟨⟨tbl⟩, by rw [ButtonsRemapper.construct, htbl]; rfl, hlen⟩

theorem buttonsRemapper_construct_fail_fast_witness :
    ButtonsRemapper.construct ["B", "A"] [["A"], ["C"]] = .error .valueError
    ∧ ∃ t : ButtonsRemapper,
        ButtonsRemapper.construct ["B", "A"] [["A"], ["B", "A"]] = .ok t
        ∧ t.actionsTable.length = ([["A"], ["B", "A"]] : List (List String)).length :=
  ⟨(buttonsRemapper_construct_fail_fast ["B", "A"] [["A"], ["C"]]).1
      (by decide),
   (buttonsRemapper_construct_fail_fast ["B", "A"] [["A"], ["B", "A"]]).2
      (by decide)⟩


/-- Heap of numpy boolean arrays; an array's address is its index in the
pool.  Models Python object identity for press-vector arrays, so that the
`.copy()` in `ButtonsRemapper.action` (envs.py line 155) is observable. -/
structure PyArrayStore where
  arrays : List (List Bool)
deriving DecidableEq

/-- The store of a constructed remapper: the canonical table rows
`self._actions` live at addresses `0 .. len(actions) - 1`. -/
def ButtonsRemapper.store (t : ButtonsRemapper) : PyArrayStore :=
  ⟨t.actionsTable⟩

/-- `ButtonsRemapper.action(a)` (envs.py 154-155): reads the canonical row
`self._actions[a]` and returns `.copy()` — a freshly allocated array with the
same contents.  Returns the fresh address together with the extended store. -/
def ButtonsRemapper.actionOp (_ : ButtonsRemapper) (a : Nat) (s : PyArrayStore) :
    Nat × PyArrayStore :=
  (s.arrays.length, ⟨s.arrays ++ [s.arrays.getD a []]⟩)

/-- In-place mutation `arr[i] = b` of the array stored at address `addr`. -/
def PyArrayStore.write (s : PyArrayStore) (addr i : Nat) (b : Bool) : PyArrayStore :=
  ⟨s.arrays.set addr ((s.arrays.getD addr []).set i b)⟩

theorem getD_append_singleton {α : Type} (d x : α) :
    ∀ (l : List α), (l ++ [x]).getD l.length d = x
  | [] => rfl
  | y :: ys => by
    simpa using getD_append_singleton d x ys

theorem getD_append_left_lt {α : Type} (d : α) :
    ∀ (l l2 : List α) (n : Nat), n < l.length → (l ++ l2).getD n d = l.getD n d
  | [], l2, n, h => by simp at h
  | y :: ys, l2, 0, h => rfl
  | y :: ys, l2, n + 1, h => by
    simpa using getD_append_left_lt d ys l2 n (by simpa using h)

theorem construct_ok_table (buttonmap : List String)
    (actions : List (List String)) (t : ButtonsRemapper)
    (hok : ButtonsRemapper.construct buttonmap actions = .ok t) :
    buildActionsTable buttonmap actions = .ok t.actionsTable := by
  rw [ButtonsRemapper.construct] at hok
  match htbl : buildActionsTable buttonmap actions with
  | .ok tbl =>
    rw [htbl] at hok
    cases hok
    rfl
  | .error e =>
    rw [htbl] at hok
    cases hok

/-- C6: for every valid action index of a constructed `ButtonsRemapper`
(over a duplicate-free button list), `action(index)` returns a boolean
press-vector whose `True` entries are exactly the buttons named by that
curated action; the returned array is a fresh copy of the canonical row:
two calls return distinct addresses, and mutating the first returned array
(any index `j`, any value `b`) leaves what a later call returns equal to the
canonical table row. -/
theorem buttonsRemapper_action_fresh_copy
    (buttonmap : List String) (actions : List (List String)) (t : ButtonsRemapper)
    (hok : ButtonsRemapper.construct buttonmap actions = .ok t)
    (hnd : buttonmap.Nodup) (i j : Nat) (b : Bool) (hi : i < actions.length) :
    ((t.actionOp i t.store).2.arrays.getD (t.actionOp i t.store).1 []
        = t.actionsTable.getD i [])
    ∧ (∀ p : Nat,
        (((t.actionOp i t.store).2.arrays.getD (t.actionOp i t.store).1 []).getD p false
            = true
          ↔ (p < buttonmap.length ∧ buttonmap.getD p "" ∈ actions.getD i [])))
    ∧ (t.actionOp i t.store).1
        ≠ (t.actionOp i (((t.actionOp i t.store).2).write (t.actionOp i t.store).1 j b)).1
    ∧ (t.actionOp i (((t.actionOp i t.store).2).write (t.actionOp i t.store).1 j b)).2.arrays.getD
        ((t.actionOp i (((t.actionOp i t.store).2).write (t.actionOp i t.store).1 j b)).1) []
      = t.actionsTable.getD i [] := by
  have htbl := construct_ok_table buttonmap actions t hok
  have hlen : t.actionsTable.length = actions.length :=
    buildActionsTable_ok_length buttonmap actions t.actionsTable htbl
  have hrow := buildActionsTable_ok_row buttonmap actions t.actionsTable htbl i hi
  have hitab : i < t.actionsTable.length := by omega
  -- the first call reads row i and allocates it at address `len(table)`
  have hread1 : (t.actionOp i t.store).2.arrays.getD (t.actionOp i t.store).1 []
      = t.actionsTable.getD i [] := by
    simp only [ButtonsRemapper.actionOp, ButtonsRemapper.store]
    exact getD_append_singleton [] _ t.actionsTable
  refine ⟨hread1, ?_, ?_, ?_⟩
  · intro p
    rw [hread1]
    exact buildActionArray_getD buttonmap (actions.getD i [])
      (t.actionsTable.getD i []) hnd hrow p
  · simp only [ButtonsRemapper.actionOp, ButtonsRemapper.store, PyArrayStore.write]
    simp
  · simp only [ButtonsRemapper.actionOp, ButtonsRemapper.store, PyArrayStore.write]
    rw [getD_append_singleton]
    rw [getD_set_eq_if]
    have hne : ¬(t.actionsTable.length = i
        ∧ t.actionsTable.length < (t.actionsTable ++ [t.actionsTable.getD i []]).length) := by
      rintro ⟨heq, _⟩
      omega
    rw [if_neg hne]
    exact getD_append_left_lt [] t.actionsTable _ i hitab

theorem buttonsRemapper_action_fresh_copy_witness :
    ((((ButtonsRemapper.mk [[false, true]]).actionOp 0
          (ButtonsRemapper.mk [[false, true]]).store).2.arrays.getD
        ((ButtonsRemapper.mk [[false, true]]).actionOp 0
          (ButtonsRemapper.mk [[false, true]]).store).1 []).getD 1 false = true
      ↔ (1 < (["B", "A"] : List String).length
          ∧ (["B", "A"] : List String).getD 1 "" ∈
              ([["A"]] : List (List String)).getD 0 [])) :=
  (buttonsRemapper_action_fresh_copy ["B", "A"] [["A"]]
    (ButtonsRemapper.mk [[false, true]]) (by rfl) (by decide) 0 0 false
    (by decide)).2.1 1


/-- An inner gym environment as a deterministic transition system: `stepfn`
takes the current emulator state and an action and returns the successor
state together with the step's `(observation, reward, done, info)`. -/
structure GymEnv (S A O I : Type) where
  stepfn : S → A → S × O × ℝ × Bool × I

/-- The loop body of `SkipFrames.step` (envs.py 19-25), with the Python local
variables `total_reward`, `obs`, `done`, `info` as accumulators:

    total_reward = 0.0
    obs = done = info = None
    for i in range(self._skip):
        obs, reward, done, info = self.env.step(action)
        total_reward += reward
        if done:
            break
-/
def skipLoop {S A O I : Type} (env : GymEnv S A O I) (action : A) :
    Nat → S → ℝ → Option O → Option Bool → Option I →
      S × Option O × ℝ × Option Bool × Option I
  | 0, s, total, obs, dn, inf => (s, obs, total, dn, inf)
  | n + 1, s, total, _, _, _ =>
    let r := env.stepfn s action
    if r.2.2.2.1 then (r.1, some r.2.1, total + r.2.2.1, some r.2.2.2.1, some r.2.2.2.2)
    else skipLoop env action n r.1 (total + r.2.2.1)
      (some r.2.1) (some r.2.2.2.1) (some r.2.2.2.2)

/-- `SkipFrames.step(action)` (envs.py 17-27) for a wrapper constructed with
`skip` (`range(skip)` is empty when `skip ≤ 0`): runs the loop and returns
the final inner state together with the `(obs, total_reward, done, info)`
tuple handed to the caller. -/
def SkipFrames.step {S A O I : Type} (env : GymEnv S A O I) (skip : Int)
    (action : A) (s : S) : S × Option O × ℝ × Option Bool × Option I :=
  skipLoop env action skip.toNat s 0 none none none

/-- State of the inner environment after `k` repeated steps of `action`. -/
def stateAfter {S A O I : Type} (env : GymEnv S A O I) (action : A) : Nat → S → S
  | 0, s => s
  | n + 1, s => stateAfter env action n (env.stepfn s action).1

/-- Output `(observation, reward, done, info)` of the `(k+1)`-th repeated
inner step, starting from state `s`. -/
def outAt {S A O I : Type} (env : GymEnv S A O I) (action : A) (k : Nat) (s : S) :
    O × ℝ × Bool × I :=
  (env.stepfn (stateAfter env action k s) action).2

def obsAt {S A O I : Type} (env : GymEnv S A O I) (action : A) (k : Nat) (s : S) : O :=
  (outAt env action k s).1

def rewAt {S A O I : Type} (env : GymEnv S A O I) (action : A) (k : Nat) (s : S) : ℝ :=
  (outAt env action k s).2.1

def doneAt {S A O I : Type} (env : GymEnv S A O I) (action : A) (k : Nat) (s : S) : Bool :=
  (outAt env action k s).2.2.1

def infoAt {S A O I : Type} (env : GymEnv S A O I) (action : A) (k : Nat) (s : S) : I :=
  (outAt env action k s).2.2.2

/-- Sum of the rewards of the first `m` repeated inner steps from `s`. -/
def sumRew {S A O I : Type} (env : GymEnv S A O I) (action : A) : Nat → S → ℝ
  | 0, _ => 0
  | n + 1, s => (env.stepfn s action).2.2.1 + sumRew env action n (env.stepfn s action).1

/-- Number of inner steps the skip loop actually executes out of a budget of
`n`: it stops after the first step reporting `done = True`. -/
def execCount {S A O I : Type} (env : GymEnv S A O I) (action : A) : Nat → S → Nat
  | 0, _ => 0
  | n + 1, s =>
    if (env.stepfn s action).2.2.2.1 then 1
    else 1 + execCount env action n (env.stepfn s action).1

theorem execCount_le {S A O I : Type} (env : GymEnv S A O I) (action : A) :
    ∀ (n : Nat) (s : S), execCount env action n s ≤ n
  | 0, _ => Nat.le_refl 0
  | n + 1, s => by
    rw [execCount]
    split
    · omega
    · have := execCount_le env action n (env.stepfn s action).1
      omega

theorem execCount_pos {S A O I : Type} (env : GymEnv S A O I) (action : A)
    (n : Nat) (s : S) (hn : 1 ≤ n) : 1 ≤ execCount env action n s := by
  match n, hn with
  | n + 1, _ =>
    rw [execCount]
    split
    · omega
    · omega

theorem execCount_not_done {S A O I : Type} (env : GymEnv S A O I) (action : A) :
    ∀ (n : Nat) (s : S) (k : Nat), k + 1 < execCount env action n s →
      doneAt env action k s = false
  | 0, s, k, hk => by rw [execCount] at hk; omega
  | n + 1, s, k, hk => by
    rw [execCount] at hk
    by_cases hdn : (env.stepfn s action).2.2.2.1
    · rw [if_pos hdn] at hk; omega
    · rw [if_neg hdn] at hk
      match k with
      | 0 =>
        simp only [doneAt, outAt, stateAfter]
        exact Bool.not_eq_true _ |>.mp hdn
      | k' + 1 =>
        have := execCount_not_done env action n (env.stepfn s action).1 k' (by omega)
        simpa [doneAt, outAt, stateAfter] using this

theorem execCount_done_at_exit {S A O I : Type} (env : GymEnv S A O I) (action : A) :
    ∀ (n : Nat) (s : S), execCount env action n s < n →
      doneAt env action (execCount env action n s - 1) s = true
  | 0, s, h => by rw [execCount] at h; omega
  | n + 1, s, h => by
    by_cases hdn : (env.stepfn s action).2.2.2.1
    · rw [execCount, if_pos hdn]
      simpa [doneAt, outAt, stateAfter] using hdn
    · rw [execCount, if_neg hdn] at h ⊢
      have hn1 : 1 ≤ n := by
        have := execCount_le env action n (env.stepfn s action).1
        omega
      have hlt : execCount env action n (env.stepfn s action).1 < n := by omega
      have ih := execCount_done_at_exit env action n (env.stepfn s action).1 hlt
      have hpos := execCount_pos env action n (env.stepfn s action).1 hn1
      have hrw : 1 + execCount env action n (env.stepfn s action).1 - 1
          = (execCount env action n (env.stepfn s action).1 - 1) + 1 := by omega
      rw [hrw]
      simpa [doneAt, outAt, stateAfter] using ih


theorem skipLoop_spec {S A O I : Type} (env : GymEnv S A O I) (action : A) :
    ∀ (n : Nat) (s : S) (total : ℝ) (o : Option O) (dn : Option Bool) (inf : Option I),
      1 ≤ n →
      skipLoop env action n s total o dn inf
        = (stateAfter env action (execCount env action n s) s,
           some (obsAt env action (execCount env action n s - 1) s),
           total + sumRew env action (execCount env action n s) s,
           some (doneAt env action (execCount env action n s - 1) s),
           some (infoAt env action (execCount env action n s - 1) s))
  | 0, s, total, o, dn, inf, hn => by omega
  | n + 1, s, total, o, dn, inf, _ => by
    by_cases hdn : (env.stepfn s action).2.2.2.1 = true
    · rw [skipLoop, if_pos hdn, execCount, if_pos hdn]
      simp [stateAfter, obsAt, outAt, doneAt, infoAt, sumRew]
    · rw [skipLoop, if_neg hdn]
      match n with
      | 0 =>
        rw [skipLoop, execCount, if_neg hdn, execCount]
        simp [stateAfter, obsAt, outAt, doneAt, infoAt, sumRew]
      | n' + 1 =>
        have hn1 : 1 ≤ n' + 1 := by omega
        have ih := skipLoop_spec env action (n' + 1) (env.stepfn s action).1
          (total + (env.stepfn s action).2.2.1) (some (env.stepfn s action).2.1)
          (some (env.stepfn s action).2.2.2.1) (some (env.stepfn s action).2.2.2.2) hn1
        rw [ih]
        have hm : execCount env action (n' + 1 + 1) s
            = execCount env action (n' + 1) (env.stepfn s action).1 + 1 := by
          rw [execCount, if_neg hdn]
          omega
        rw [hm]
        have hpos := execCount_pos env action (n' + 1) (env.stepfn s action).1 hn1
        obtain ⟨k, hk⟩ : ∃ k, execCount env action (n' + 1) (env.stepfn s action).1
            = k + 1 := ⟨execCount env action (n' + 1) (env.stepfn s action).1 - 1, by omega⟩
        rw [hk]
        simp only [Nat.add_sub_cancel]
        simp [stateAfter, obsAt, outAt, doneAt, infoAt, sumRew, add_assoc]

/-- C7: for every `skip ≥ 1`, `SkipFrames.step(action)` repeats the action
for `m` inner steps where `1 ≤ m ≤ skip`, no inner step before the last
executed one reports `done`, the loop stops short of the budget only because
the last executed step reports `done = True` (discarding the remaining
repeats), and the returned tuple is the sum of the rewards of the executed
steps together with the observation, done flag and info of the last executed
inner step. -/
theorem skipFrames_step_spec {S A O I : Type} (env : GymEnv S A O I) (skip : Int)
    (action : A) (s : S) (hskip : 1 ≤ skip) :
    1 ≤ execCount env action skip.toNat s
    ∧ execCount env action skip.toNat s ≤ skip.toNat
    ∧ (∀ k : Nat, k + 1 < execCount env action skip.toNat s →
        doneAt env action k s = false)
    ∧ (execCount env action skip.toNat s < skip.toNat →
        doneAt env action (execCount env action skip.toNat s - 1) s = true)
    ∧ SkipFrames.step env skip action s
        = (stateAfter env action (execCount env action skip.toNat s) s,
           some (obsAt env action (execCount env action skip.toNat s - 1) s),
           sumRew env action (execCount env action skip.toNat s) s,
           some (doneAt env action (execCount env action skip.toNat s - 1) s),
           some (infoAt env action (execCount env action skip.toNat s - 1) s)) := by
  have hn : 1 ≤ skip.toNat := by omega
  refine ⟨execCount_pos env action skip.toNat s hn, execCount_le env action skip.toNat s,
    execCount_not_done env action skip.toNat s, execCount_done_at_exit env action skip.toNat s,
    ?_⟩
  rw [SkipFrames.step, skipLoop_spec env action skip.toNat s 0 none none none hn]
  rw [zero_add]

theorem skipFrames_step_spec_witness :
    (1 : Int) ≤ 3
    ∧ SkipFrames.step (GymEnv.mk (fun (s : Nat) (_ : Unit) => (s + 1, s, (1 : ℝ), s == 1, ())))
        3 () 0
      = (stateAfter (GymEnv.mk (fun (s : Nat) (_ : Unit) => (s + 1, s, (1 : ℝ), s == 1, ()))) ()
           (execCount (GymEnv.mk (fun (s : Nat) (_ : Unit) => (s + 1, s, (1 : ℝ), s == 1, ()))) ()
             (3 : Int).toNat 0) 0,
         some (obsAt (GymEnv.mk (fun (s : Nat) (_ : Unit) => (s + 1, s, (1 : ℝ), s == 1, ()))) ()
           (execCount (GymEnv.mk (fun (s : Nat) (_ : Unit) => (s + 1, s, (1 : ℝ), s == 1, ()))) ()
             (3 : Int).toNat 0 - 1) 0),
         sumRew (GymEnv.mk (fun (s : Nat) (_ : Unit) => (s + 1, s, (1 : ℝ), s == 1, ()))) ()
           (execCount (GymEnv.mk (fun (s : Nat) (_ : Unit) => (s + 1, s, (1 : ℝ), s == 1, ()))) ()
             (3 : Int).toNat 0) 0,
         some (doneAt (GymEnv.mk (fun (s : Nat) (_ : Unit) => (s + 1, s, (1 : ℝ), s == 1, ()))) ()
           (execCount (GymEnv.mk (fun (s : Nat) (_ : Unit) => (s + 1, s, (1 : ℝ), s == 1, ()))) ()
             (3 : Int).toNat 0 - 1) 0),
         some (infoAt (GymEnv.mk (fun (s : Nat) (_ : Unit) => (s + 1, s, (1 : ℝ), s == 1, ()))) ()
           (execCount (GymEnv.mk (fun (s : Nat) (_ : Unit) => (s + 1, s, (1 : ℝ), s == 1, ()))) ()
             (3 : Int).toNat 0 - 1) 0)) :=
  ⟨by norm_num,
   (skipFrames_step_spec (GymEnv.mk (fun (s : Nat) (_ : Unit) => (s + 1, s, (1 : ℝ), s == 1, ())))
     3 () 0 (by norm_num)).2.2.2.2⟩

/-- C10: if the `SkipFrames` wrapper was constructed with `skip ≤ 0`, then
`range(skip)` is empty, `step(action)` performs no inner environment step,
and the tuple returned to the caller is `(None, 0.0, None, None)` — the
local variables `obs = done = info = None` are returned unassigned (the
inner state is also untouched). -/
theorem skipFrames_step_nonpositive {S A O I : Type} (env : GymEnv S A O I)
    (skip : Int) (action : A) (s : S) (hskip : skip ≤ 0) :
    SkipFrames.step env skip action s = (s, none, 0, none, none) := by
  rw [SkipFrames.step, Int.toNat_of_nonpos hskip]
  rfl

theorem skipFrames_step_nonpositive_witness :
    SkipFrames.step (GymEnv.mk (fun (s : Nat) (_ : Unit) => (s + 1, s, (1 : ℝ), true, ())))
        (-2) () 5
      = (5, none, 0, none, none) :=
  skipFrames_step_nonpositive
    (GymEnv.mk (fun (s : Nat) (_ : Unit) => (s + 1, s, (1 : ℝ), true, ())))
    (-2) () 5 (by norm_num)


/-- An inner environment for the frame-stack wrapper: `resetfn` produces the
first observation of a new episode, `stepfn` the next observation together
with reward/done/info. -/
structure FrameEnv (S A F I : Type) where
  resetfn : S → S × F
  stepfn : S → A → S × F × ℝ × Bool × I

/-- `collections.deque(maxlen = k).append(x)`: append on the right, evicting
from the left whenever the capacity `k` is exceeded. -/
def dequeAppend {F : Type} (k : Nat) (w : List F) (x : F) : List F :=
  (w ++ [x]).drop ((w ++ [x]).length - k)

/-- The last `k` elements of a list (all of it when it is shorter). -/
def lastK {F : Type} (k : Nat) (u : List F) : List F :=
  u.drop (u.length - k)

theorem dequeAppend_eq_lastK {F : Type} (k : Nat) (w : List F) (x : F) :
    dequeAppend k w x = lastK k (w ++ [x]) := rfl

theorem lastK_of_length_le {F : Type} (k : Nat) (u : List F)
    (h : u.length ≤ k) : lastK k u = u := by
  rw [lastK, Nat.sub_eq_zero_of_le h, List.drop_zero]

theorem lastK_length {F : Type} (k : Nat) (u : List F) :
    (lastK k u).length = min u.length k := by
  rw [lastK, List.length_drop]
  rcases Nat.le_total u.length k with h | h
  · rw [Nat.sub_eq_zero_of_le h, Nat.sub_zero, Nat.min_eq_left h]
  · rw [Nat.min_eq_right h]
    omega

theorem lastK_append_full {F : Type} (k : Nat) (u v : List F)
    (hv : v.length = k) : lastK k (u ++ v) = v := by
  rw [lastK, List.length_append, hv, Nat.add_sub_cancel]
  rw [List.drop_left]

theorem lastK_absorb {F : Type} (k : Nat) (u v : List F) :
    lastK k (lastK k u ++ v) = lastK k (u ++ v) := by
  unfold lastK
  rw [← List.drop_append_of_le_length (Nat.sub_le u.length k)]
  rw [List.drop_drop]
  congr 1
  simp only [List.length_append, List.length_drop]
  omega

theorem dequeAppend_length {F : Type} (k : Nat) (w : List F) (x : F) :
    (dequeAppend k w x).length = min (w.length + 1) k := by
  rw [dequeAppend_eq_lastK, lastK_length, List.length_append]
  simp

theorem dequeAppend_iterate {F : Type} (k : Nat) (x : F) :
    ∀ (n : Nat) (w : List F), w.length ≤ k →
      (fun acc => dequeAppend k acc x)^[n] w = lastK k (w ++ List.replicate n x)
  | 0, w, hw => by
    simp only [Function.iterate_zero, id_eq, List.replicate_zero, List.append_nil]
    exact (lastK_of_length_le k w hw).symm
  | n + 1, w, hw => by
    rw [Function.iterate_succ_apply]
    have hlen : (dequeAppend k w x).length ≤ k := by
      rw [dequeAppend_length]
      omega
    rw [dequeAppend_iterate k x n (dequeAppend k w x) hlen]
    rw [dequeAppend_eq_lastK, lastK_absorb]
    rw [List.append_assoc]
    have hx : [x] ++ List.replicate n x = List.replicate (n + 1) x := by
      simp [List.replicate_succ]
    rw [hx]

theorem dequeAppend_iterate_replicate {F : Type} (k : Nat) (x : F) (w : List F)
    (hw : w.length ≤ k) :
    (fun acc => dequeAppend k acc x)^[k] w = List.replicate k x := by
  rw [dequeAppend_iterate k x k w hw]
  exact lastK_append_full k w (List.replicate k x) (List.length_replicate k x)


/-- `FrameStack.reset` (envs.py 84-88): reset the inner environment, then
append its first observation `k` times into the persistent deque
(`for _ in range(self.k): self.frames.append(ob)`); the stacked observation
is the deque contents. -/
def FrameStack.resetOp {S A F I : Type} (k : Nat) (env : FrameEnv S A F I)
    (es : S) (w : List F) : (S × List F) × List F :=
  let p := env.resetfn es
  let w' := (fun acc => dequeAppend k acc p.2)^[k] w
  ((p.1, w'), w')

/-- `FrameStack.step` (envs.py 90-93): step the inner environment, append the
new observation to the deque, return the stacked observation with the inner
reward/done/info. -/
def FrameStack.stepOp {S A F I : Type} (k : Nat) (env : FrameEnv S A F I)
    (a : A) (es : S) (w : List F) : (S × List F) × List F × ℝ × Bool × I :=
  let r := env.stepfn es a
  let w' := dequeAppend k w r.2.1
  ((r.1, w'), w', r.2.2.1, r.2.2.2.1, r.2.2.2.2)

/-- One external call on a `FrameStack` wrapper. -/
inductive FSOp (A : Type) where
  | reset
  | step (a : A)

/-- Runs a sequence of reset/step calls on the wrapper, threading the inner
environment state and the frame deque (initially empty, as in `__init__`). -/
def FrameStack.run {S A F I : Type} (k : Nat) (env : FrameEnv S A F I) :
    List (FSOp A) → S × List F → S × List F
  | [], st => st
  | FSOp.reset :: ops, st => FrameStack.run k env ops (FrameStack.resetOp k env st.1 st.2).1
  | FSOp.step a :: ops, st => FrameStack.run k env ops (FrameStack.stepOp k env a st.1 st.2).1

theorem frameStack_resetOp_window {S A F I : Type} (k : Nat) (env : FrameEnv S A F I)
    (es : S) (w : List F) (hw : w.length ≤ k) :
    (FrameStack.resetOp k env es w).1.2 = List.replicate k (env.resetfn es).2
    ∧ (FrameStack.resetOp k env es w).1.1 = (env.resetfn es).1 := by
  constructor
  · simp only [FrameStack.resetOp]
    exact dequeAppend_iterate_replicate k (env.resetfn es).2 w hw
  · rfl

theorem frameStack_run_le {S A F I : Type} (k : Nat) (env : FrameEnv S A F I) :
    ∀ (ops : List (FSOp A)) (st : S × List F), st.2.length ≤ k →
      (FrameStack.run k env ops st).2.length ≤ k
  | [], st, h => h
  | FSOp.reset :: ops, st, h => by
    rw [FrameStack.run]
    refine frameStack_run_le k env ops _ ?_
    rw [(frameStack_resetOp_window k env st.1 st.2 h).1]
    simp
  | FSOp.step a :: ops, st, h => by
    rw [FrameStack.run]
    refine frameStack_run_le k env ops _ ?_
    have : (FrameStack.stepOp k env a st.1 st.2).1.2.length
        = min (st.2.length + 1) k := by
      simp only [FrameStack.stepOp]
      exact dequeAppend_length k st.2 _
    rw [this]
    omega

theorem frameStack_run_exact {S A F I : Type} (k : Nat) (env : FrameEnv S A F I) :
    ∀ (ops : List (FSOp A)) (st : S × List F), st.2.length = k →
      (FrameStack.run k env ops st).2.length = k
  | [], st, h => h
  | FSOp.reset :: ops, st, h => by
    rw [FrameStack.run]
    refine frameStack_run_exact k env ops _ ?_
    rw [(frameStack_resetOp_window k env st.1 st.2 (le_of_eq h)).1]
    simp
  | FSOp.step a :: ops, st, h => by
    rw [FrameStack.run]
    refine frameStack_run_exact k env ops _ ?_
    have : (FrameStack.stepOp k env a st.1 st.2).1.2.length
        = min (st.2.length + 1) k := by
      simp only [FrameStack.stepOp]
      exact dequeAppend_length k st.2 _
    rw [this, h]
    omega

theorem frameStack_run_append {S A F I : Type} (k : Nat) (env : FrameEnv S A F I) :
    ∀ (ops1 ops2 : List (FSOp A)) (st : S × List F),
      FrameStack.run k env (ops1 ++ ops2) st
        = FrameStack.run k env ops2 (FrameStack.run k env ops1 st)
  | [], ops2, st => rfl
  | FSOp.reset :: ops, ops2, st => by
    rw [List.cons_append, FrameStack.run, FrameStack.run]
    exact frameStack_run_append k env ops ops2 _
  | FSOp.step a :: ops, ops2, st => by
    rw [List.cons_append, FrameStack.run, FrameStack.run]
    exact frameStack_run_append k env ops ops2 _

/-- The rollout generator's fresh per-episode frame window
(policygradientpytorch.py line 159):
`statesqueue = deque([x for _ in range(windowlength)], maxlen=windowlength)`. -/
def genWindowReset {F : Type} (k : Nat) (x : F) : List F := List.replicate k x

/-- The rollout generator's window update (policygradientpytorch.py line 172):
`statesqueue.append(x)` on a deque of capacity `windowlength`. -/
def genWindowStep {F : Type} (k : Nat) (w : List F) (x : F) : List F :=
  dequeAppend k w x

/-- C8: frame-window invariant.  For every interleaving of reset and step
calls on a `FrameStack` that begins with a reset (as the gym contract
requires; `_get_ob` asserts this), the deque consumed by the model contains
exactly `k` frames after every prefix of the interleaving, and immediately
after any `reset()` the window consists of `k` identical copies of the first
processed frame of the new episode.  The rollout generator's per-episode
window obeys the same invariant: it is created as `k` copies of the first
processed frame and every step-append preserves its length `k`. -/
theorem frameStack_window_invariant {S A F I : Type} (k : Nat)
    (env : FrameEnv S A F I) (es0 : S) :
    (∀ pre : List (FSOp A),
      (FrameStack.run k env (FSOp.reset :: pre) (es0, [])).2.length = k)
    ∧ (∀ pre : List (FSOp A),
      (FrameStack.run k env (pre ++ [FSOp.reset]) (es0, [])).2
        = List.replicate k
            (env.resetfn (FrameStack.run k env pre (es0, [])).1).2)
    ∧ (∀ (x : F), genWindowReset k x = List.replicate k x
        ∧ (genWindowReset k x).length = k)
    ∧ (∀ (w : List F) (x : F), w.length = k → (genWindowStep k w x).length = k) := by
  refine ⟨?_, ?_, ?_, ?_⟩
  · intro pre
    rw [FrameStack.run]
    refine frameStack_run_exact k env pre _ ?_
    rw [(frameStack_resetOp_window k env es0 [] (by simp)).1]
    simp
  · intro pre
    rw [frameStack_run_append]
    have hle : (FrameStack.run k env pre (es0, ([] : List F))).2.length ≤ k :=
      frameStack_run_le k env pre (es0, []) (by simp)
    rw [FrameStack.run, FrameStack.run]
    exact (frameStack_resetOp_window k env _ _ hle).1
  · intro x
    exact ⟨rfl, by simp [genWindowReset]⟩
  · intro w x hw
    rw [genWindowStep, dequeAppend_length, hw]
    omega

theorem frameStack_window_invariant_witness :
    (([5, 6] : List Nat).length = 2)
    ∧ (genWindowStep 2 ([5, 6] : List Nat) 7).length = 2 :=
  ⟨by simp,
   (frameStack_window_invariant 2
      (FrameEnv.mk (fun (s : Nat) => (s + 1, s))
        (fun (s : Nat) (_ : Unit) => (s + 1, s, (0 : ℝ), false, ())))
      0).2.2.2 [5, 6] 7 (by simp)⟩


/-- `np.concatenate(frames, axis=2)` on a non-empty list of equally-shaped
H×W×C frames (each frame a height × width grid of channel lists):
channel-axis concatenation, cell by cell. -/
def concatAxis2 {α : Type} : List (List (List (List α))) → List (List (List α))
  | [] => []
  | f :: rest => rest.foldl (fun acc g => List.zipWith (List.zipWith (· ++ ·)) acc g) f

/-- `LazyFrames` (envs.py 33-63): stores the frame list on construction;
`_force` computes the concatenation on first use, caches it in `_out` and
drops `_frames`. -/
structure LazyFrames (α : Type) where
  framesField : Option (List (List (List (List α))))
  outField : Option (List (List (List α)))
deriving DecidableEq

/-- `LazyFrames.__init__(frames)` (envs.py 34-45): `self._frames = frames;
self._out = None`. -/
def LazyFrames.ofFrames {α : Type} (frames : List (List (List (List α)))) :
    LazyFrames α :=
  ⟨some frames, none⟩

/-- `_force` (envs.py 47-51): returns the cached concatenation, computing and
caching it (and dropping the frame list) the first time. -/
def LazyFrames.force {α : Type} (lf : LazyFrames α) :
    List (List (List α)) × LazyFrames α :=
  match lf.outField with
  | some out => (out, lf)
  | none => (concatAxis2 (lf.framesField.getD []),
      ⟨none, some (concatAxis2 (lf.framesField.getD []))⟩)

/-- `__array__` (envs.py 53-57), without the optional dtype cast. -/
def LazyFrames.toArray {α : Type} (lf : LazyFrames α) :
    List (List (List α)) × LazyFrames α :=
  lf.force

/-- `__len__` (envs.py 59-60): `len(self._force())` — the height of the
concatenated array. -/
def LazyFrames.lfLen {α : Type} (lf : LazyFrames α) : Nat × LazyFrames α :=
  ((lf.force).1.length, (lf.force).2)

/-- `__getitem__` (envs.py 62-63): `self._force()[i]`. -/
def LazyFrames.getItem {α : Type} (lf : LazyFrames α) (i : Nat) :
    List (List α) × LazyFrames α :=
  ((lf.force).1.getD i [], (lf.force).2)

theorem lazyFrames_force_cached {α : Type} (out : List (List (List α))) :
    LazyFrames.force (⟨none, some out⟩ : LazyFrames α)
      = (out, (⟨none, some out⟩ : LazyFrames α)) := rfl

theorem lazyFrames_iterate_cached {α : Type} (out : List (List (List α))) :
    ∀ n : Nat, (fun lf : LazyFrames α => lf.force.2)^[n] ⟨none, some out⟩
      = ⟨none, some out⟩
  | 0 => rfl
  | n + 1 => by
    rw [Function.iterate_succ_apply]
    exact lazyFrames_iterate_cached out n

/-- C9: a `LazyFrames` built from a non-empty list of frames refines eager
channel-axis concatenation: the first materialization (array conversion)
yields exactly `np.concatenate(frames, axis=2)`; every later
materialization — after any number of forcing operations — yields the same
array; and `__len__` / `__getitem__` agree with the length and rows of the
eager concatenation. -/
theorem lazyFrames_refines_concat {α : Type}
    (frames : List (List (List (List α)))) (hne : frames ≠ []) :
    (LazyFrames.ofFrames frames).force.1 = concatAxis2 frames
    ∧ (∀ n : Nat,
        (((fun lf : LazyFrames α => lf.force.2)^[n]
            (LazyFrames.ofFrames frames)).force).1 = concatAxis2 frames)
    ∧ (LazyFrames.ofFrames frames).toArray.1 = concatAxis2 frames
    ∧ (LazyFrames.ofFrames frames).lfLen.1 = (concatAxis2 frames).length
    ∧ (∀ i : Nat, ((LazyFrames.ofFrames frames).getItem i).1
        = (concatAxis2 frames).getD i []) := by
  have hforce : (LazyFrames.ofFrames frames).force
      = (concatAxis2 frames, ⟨none, some (concatAxis2 frames)⟩) := rfl
  refine ⟨by rw [hforce], ?_, by rw [LazyFrames.toArray, hforce], ?_, ?_⟩
  · intro n
    match n with
    | 0 => rw [Function.iterate_zero, id_eq, hforce]
    | n + 1 =>
      rw [Function.iterate_succ_apply, hforce]
      rw [lazyFrames_iterate_cached (concatAxis2 frames) n]
      rfl
  · rw [LazyFrames.lfLen, hforce]
  · intro i
    rw [LazyFrames.getItem, hforce]

theorem lazyFrames_refines_concat_witness :
    ([[[[1]]], [[[2]]]] : List (List (List (List Nat)))) ≠ []
    ∧ (LazyFrames.ofFrames ([[[[1]]], [[[2]]]] : List (List (List (List Nat))))).force.1
        = concatAxis2 ([[[[1]]], [[[2]]]] : List (List (List (List Nat)))) :=
  ⟨by simp,
   (lazyFrames_refines_concat ([[[[1]]], [[[2]]]] : List (List (List (List Nat))))
     (by simp)).1⟩

end SnesRL
